import Mathlib

/-!
Verification of the STOMP matrix-profile engine in `stumpy/mstump.py`.

The source file defines two functions:
* `_mstump` — the JIT-compiled incremental (STOMP) recurrence engine that,
  for query rows `range_start .. range_stop - 1`, updates a sliding
  dot-product buffer (two parity-alternating copies `QT_even` / `QT_odd` of
  the supplied `QT` vector), turns it into a squared z-normalized distance
  profile, masks the self-join exclusion zone with `+inf`, and extracts the
  best / left / right neighbor per row.
* `mstump` — the driver: dtype validation, window statistics, first row via
  a brute-force initializer, remaining rows via the engine, assembly of the
  `l x 4` output.

Series elements are embedded as rationals (`ℚ`); the `+inf` values written
into masked distance profiles are embedded by working in `WithTop ℚ`.  The
source stores `P = sqrt(D[I])`; since `sqrt` is order-preserving and the
source applies it only at the very end, the embedding keeps the radicand
`D[I]` (field `Psq` below) instead of the square root.

Collaborators imported by `mstump.py` from outside this file's source
(`core.compute_mean_std`, `_get_first_stump_profile`) are kept as explicit
function parameters of the driver; `_get_QT` and
`_calculate_squared_distance_profile` are modelled from the spec (see their
doc comments).
-/

/-- Dot product of query window `i` of `TB` with reference window `j` of
`TA`, both of length `m`: the quantity the `QT` buffers of `_mstump` are
meant to hold. -/
def windowDot (TA TB : ℕ → ℚ) (m i j : ℕ) : ℚ :=
  ∑ t ∈ Finset.range m, TB (i + t) * TA (j + t)

/-- The sliding-window identity behind the STOMP update on line
`QT[j] = QT[j-1] - T_B[i-1]*T_A[j-1] + T_B[i+m-1]*T_A[j+m-1]`. -/
theorem windowDot_recurrence (TA TB : ℕ → ℚ) (m c j : ℕ)
    (hm : 1 ≤ m) (hj : 1 ≤ j) :
    windowDot TA TB m (c + 1) j =
      windowDot TA TB m c (j - 1) - TB c * TA (j - 1)
        + TB (c + m) * TA (j + m - 1) := by
  obtain ⟨mm, rfl⟩ : ∃ mm, m = mm + 1 := ⟨m - 1, by omega⟩
  obtain ⟨jj, rfl⟩ : ∃ jj, j = jj + 1 := ⟨j - 1, by omega⟩
  have hz : jj + 1 + (mm + 1) - 1 = jj + 1 + mm := by omega
  have hw : c + (mm + 1) = c + 1 + mm := by omega
  have hjr : jj + 1 - 1 = jj := by omega
  rw [hz, hw, hjr]
  unfold windowDot
  rw [Finset.sum_range_succ, Finset.sum_range_succ']
  have e3 : (∑ t ∈ Finset.range mm, TB (c + (t + 1)) * TA (jj + (t + 1)))
      = ∑ t ∈ Finset.range mm, TB (c + 1 + t) * TA (jj + 1 + t) := by
    refine Finset.sum_congr rfl ?_
    intro t _
    have hx : c + (t + 1) = c + 1 + t := by omega
    have hy : jj + (t + 1) = jj + 1 + t := by omega
    rw [hx, hy]
  rw [e3]
  simp only [Nat.add_zero]
  ring

/-- Index of the first minimum of `f` over `0, …, n-1` — the behavior of
`np.argmin` (ties resolve to the lowest index). -/
def argminUpTo (f : ℕ → WithTop ℚ) : ℕ → ℕ
  | 0 => 0
  | n + 1 => if f n < f (argminUpTo f n) then n else argminUpTo f n

theorem argminUpTo_lt (f : ℕ → WithTop ℚ) (n : ℕ) (h : 1 ≤ n) :
    argminUpTo f n < n := by
  induction n with
  | zero => omega
  | succ n ih =>
    unfold argminUpTo
    split
    · exact Nat.lt_succ_self n
    · rcases Nat.eq_zero_or_pos n with h0 | h0
      · subst h0
        simp [argminUpTo]
      · exact Nat.lt_trans (ih h0) (Nat.lt_succ_self n)

theorem argminUpTo_min (f : ℕ → WithTop ℚ) (n : ℕ) :
    ∀ j, j < n → f (argminUpTo f n) ≤ f j := by
  induction n with
  | zero => intro j hj; omega
  | succ n ih =>
    intro j hj
    unfold argminUpTo
    split
    · rename_i hlt
      rcases Nat.lt_succ_iff_lt_or_eq.mp hj with h | h
      · exact le_of_lt (lt_of_lt_of_le hlt (ih j h))
      · rw [h]
    · rename_i hnlt
      rcases Nat.lt_succ_iff_lt_or_eq.mp hj with h | h
      · exact ih j h
      · rw [h]
        exact le_of_not_lt hnlt

theorem argminUpTo_le (f : ℕ → WithTop ℚ) (n : ℕ) : argminUpTo f n ≤ n := by
  cases n with
  | zero => exact Nat.le_refl 0
  | succ n => exact Nat.le_of_lt (argminUpTo_lt f (n + 1) (Nat.succ_le_succ (Nat.zero_le n)))

theorem argminUpTo_first (f : ℕ → WithTop ℚ) (n : ℕ) :
    ∀ j, j < argminUpTo f n → f (argminUpTo f n) < f j := by
  induction n with
  | zero => intro j hj; simp [argminUpTo] at hj
  | succ n ih =>
    intro j hj
    by_cases hlt : f n < f (argminUpTo f n)
    · unfold argminUpTo at hj ⊢
      rw [if_pos hlt] at hj ⊢
      exact lt_of_lt_of_le hlt (argminUpTo_min f n j hj)
    · unfold argminUpTo at hj ⊢
      rw [if_neg hlt] at hj ⊢
      exact ih j hj

theorem argminUpTo_all_top (f : ℕ → WithTop ℚ) (n : ℕ)
    (h : ∀ j, j < n → f j = ⊤) : argminUpTo f n = 0 := by
  induction n with
  | zero => rfl
  | succ n ih =>
    unfold argminUpTo
    rw [if_neg]
    · exact ih (fun j hj => h j (Nat.lt_succ_of_lt hj))
    · rw [h n (Nat.lt_succ_self n)]
      exact not_top_lt

theorem argminUpTo_congr (f g : ℕ → WithTop ℚ) (n : ℕ)
    (h : ∀ j, j < n → f j = g j) : argminUpTo f n = argminUpTo g n := by
  induction n with
  | zero => rfl
  | succ n ih =>
    have ih2 := ih (fun j hj => h j (Nat.lt_succ_of_lt hj))
    unfold argminUpTo
    rw [h n (Nat.lt_succ_self n), ih2,
      h (argminUpTo g n) (Nat.lt_succ_of_le (argminUpTo_le g n))]

/-- Modelled from the spec: `_calculate_squared_distance_profile` is imported
by `mstump.py` from the package and its code is not under `src/`.  Spec §4.1:
`D[j] = max(0, 2·m·(1 − (QT[j] − m·μ·M[j]) / (m·σ·Σ[j])))`.  The spec leaves
the zero-variance fallback open; with rational division `x / 0 = 0` this
model's fallback on a degenerate window is the finite value `2·m`. -/
def _calculate_squared_distance_profile (m : ℕ) (QT : ℕ → ℚ) (μ σ : ℚ)
    (M S : ℕ → ℚ) (j : ℕ) : ℚ :=
  max 0 (2 * m * (1 - (QT j - m * μ * M j) / (m * σ * S j)))

/-- The value written to column `j` of the live buffer by the inner loop of
`_mstump`: `prev[j-1] - T_B[i-1]*T_A[j-1] + T_B[i+m-1]*T_A[j+m-1]`, reading
only the previous row's buffer `prev`. -/
def colVal (TA TB : ℕ → ℚ) (m i : ℕ) (prev : ℕ → ℚ) (j : ℕ) : ℚ :=
  prev (j - 1) - TB (i - 1) * TA (j - 1) + TB (i + m - 1) * TA (j + m - 1)

/-- Apply the column updates of one row of `_mstump` at the indices listed in
`order`, starting from the live buffer's current contents `cur`. -/
def applyCols (TA TB : ℕ → ℚ) (m i : ℕ) (prev : ℕ → ℚ) (order : List ℕ)
    (cur : ℕ → ℚ) : ℕ → ℚ :=
  order.foldl (fun acc j => Function.update acc j (colVal TA TB m i prev j)) cur

/-- The column order used by the source's inner loop
(`for rev_j in prange(1, k): j = k - rev_j`): `k-1, …, 1`. -/
def descCols (k : ℕ) : List ℕ :=
  (List.range' 1 (k - 1)).reverse

/-- Ascending column order `1, …, k-1`. -/
def ascCols (k : ℕ) : List ℕ :=
  List.range' 1 (k - 1)

theorem applyCols_eval (TA TB : ℕ → ℚ) (m i : ℕ) (prev : ℕ → ℚ) :
    ∀ (order : List ℕ) (cur : ℕ → ℚ) (j : ℕ),
      applyCols TA TB m i prev order cur j =
        if j ∈ order then colVal TA TB m i prev j else cur j := by
  intro order
  induction order with
  | nil => intro cur j; simp [applyCols]
  | cons a order ih =>
    intro cur j
    have step : applyCols TA TB m i prev (a :: order) cur =
        applyCols TA TB m i prev order
          (Function.update cur a (colVal TA TB m i prev a)) := by
      simp [applyCols]
    rw [step, ih]
    by_cases hj : j ∈ order
    · simp [hj, List.mem_cons]
    · by_cases ha : j = a
      · subst ha
        simp [hj, Function.update_apply]
      · simp [hj, ha, Function.update_apply]

theorem mem_ascCols (k j : ℕ) : j ∈ ascCols k ↔ 1 ≤ j ∧ j < k := by
  unfold ascCols
  rw [List.mem_range'_1]
  omega

theorem mem_descCols (k j : ℕ) : j ∈ descCols k ↔ 1 ≤ j ∧ j < k := by
  unfold descCols
  rw [List.mem_reverse]
  exact mem_ascCols k j

/-- The full live buffer produced for row `i`: the column updates at indices
`k-1, …, 1` followed by the seeding `live[0] = QT_first[i]`. -/
def computeLive (TA TB : ℕ → ℚ) (m i k : ℕ) (QTfirst : ℕ → ℚ)
    (prev cur : ℕ → ℚ) : ℕ → ℚ :=
  Function.update (applyCols TA TB m i prev (descCols k) cur) 0 (QTfirst i)

theorem computeLive_eval (TA TB : ℕ → ℚ) (m i k : ℕ) (QTfirst : ℕ → ℚ)
    (prev cur : ℕ → ℚ) (j : ℕ) :
    computeLive TA TB m i k QTfirst prev cur j =
      if j = 0 then QTfirst i
      else if 1 ≤ j ∧ j < k then colVal TA TB m i prev j else cur j := by
  unfold computeLive
  rw [Function.update_apply, applyCols_eval]
  simp only [mem_descCols]

/-- The masked distance profile: for a self-join (`ignoreTrivial`), the
slice `D[max(0, i-excl_zone) : i+excl_zone+1]` is set to `np.inf` (`⊤`)
before any argmin is taken.  Natural subtraction `i - exclZone` is exactly
`max(0, i - exclZone)`. -/
def maskD (D0 : ℕ → WithTop ℚ) (ignoreTrivial : Bool) (i exclZone : ℕ) :
    ℕ → WithTop ℚ :=
  fun j =>
    if ignoreTrivial ∧ i - exclZone ≤ j ∧ j < i + exclZone + 1 then ⊤ else D0 j

/-- One output row of `_mstump`.  `Psq` is the radicand of the reported
distance (the source stores `P = np.sqrt(D[I])`); `I`, `IL`, `IR` are the
matrix-profile, left and right indices. -/
structure RowRes where
  Psq : WithTop ℚ
  I : ℤ
  IL : ℤ
  IR : ℤ
deriving DecidableEq

/-- The per-row tail of `_mstump` (lines after the column loop): mask the
exclusion zone, take `I = argmin(D)`, `P` from `D[I]`, then the left/right
neighbors with their zone checks.  Slices are reproduced exactly:
`D[:i]` has `min i k` entries and `D[i+1:]` has `k - (i+1)` entries starting
at offset `i+1`. -/
def rowOut (D0 : ℕ → WithTop ℚ) (i k exclZone : ℕ) (ignoreTrivial : Bool) :
    RowRes :=
  let D := maskD D0 ignoreTrivial i exclZone
  let I := argminUpTo D k
  let IL : ℤ :=
    if ignoreTrivial ∧ 0 < i then
      (let ilr := argminUpTo D (min i k)
       if i - exclZone ≤ ilr ∧ ilr < i + exclZone + 1 then -1 else (ilr : ℤ))
    else -1
  let IR : ℤ :=
    if ignoreTrivial ∧ i + 1 < k then
      (let irr := i + 1 + argminUpTo (fun t => D (i + 1 + t)) (k - (i + 1))
       if i - exclZone ≤ irr ∧ irr < i + exclZone + 1 then -1 else (irr : ℤ))
    else -1
  ⟨D I, (I : ℤ), IL, IR⟩

theorem rowOut_Psq (D0 : ℕ → WithTop ℚ) (i k exclZone : ℕ) (it : Bool) :
    (rowOut D0 i k exclZone it).Psq =
      maskD D0 it i exclZone (argminUpTo (maskD D0 it i exclZone) k) := rfl

theorem rowOut_I (D0 : ℕ → WithTop ℚ) (i k exclZone : ℕ) (it : Bool) :
    (rowOut D0 i k exclZone it).I =
      ((argminUpTo (maskD D0 it i exclZone) k : ℕ) : ℤ) := rfl

theorem rowOut_IL (D0 : ℕ → WithTop ℚ) (i k exclZone : ℕ) (it : Bool) :
    (rowOut D0 i k exclZone it).IL =
      (if it ∧ 0 < i then
        (let ilr := argminUpTo (maskD D0 it i exclZone) (min i k)
         if i - exclZone ≤ ilr ∧ ilr < i + exclZone + 1 then -1 else (ilr : ℤ))
      else -1) := rfl

theorem rowOut_IR (D0 : ℕ → WithTop ℚ) (i k exclZone : ℕ) (it : Bool) :
    (rowOut D0 i k exclZone it).IR =
      (if it ∧ i + 1 < k then
        (let irr := i + 1 +
            argminUpTo (fun t => maskD D0 it i exclZone (i + 1 + t)) (k - (i + 1))
         if i - exclZone ≤ irr ∧ irr < i + exclZone + 1 then -1 else (irr : ℤ))
      else -1) := rfl

theorem maskD_congr (D0 D0' : ℕ → WithTop ℚ) (it : Bool) (i exclZone k : ℕ)
    (h : ∀ j, j < k → D0 j = D0' j) :
    ∀ j, j < k → maskD D0 it i exclZone j = maskD D0' it i exclZone j := by
  intro j hj
  unfold maskD
  rw [h j hj]

/-- `rowOut` only inspects `D0` below index `k` (when `k ≥ 1`). -/
theorem rowOut_congr (D0 D0' : ℕ → WithTop ℚ) (i k exclZone : ℕ) (it : Bool)
    (hk : 1 ≤ k) (h : ∀ j, j < k → D0 j = D0' j) :
    rowOut D0 i k exclZone it = rowOut D0' i k exclZone it := by
  have hD := maskD_congr D0 D0' it i exclZone k h
  have hI : argminUpTo (maskD D0 it i exclZone) k
      = argminUpTo (maskD D0' it i exclZone) k :=
    argminUpTo_congr _ _ k hD
  have hIL : argminUpTo (maskD D0 it i exclZone) (min i k)
      = argminUpTo (maskD D0' it i exclZone) (min i k) :=
    argminUpTo_congr _ _ (min i k)
      (fun j hj => hD j (lt_of_lt_of_le hj (min_le_right i k)))
  have hIR : argminUpTo (fun t => maskD D0 it i exclZone (i + 1 + t)) (k - (i + 1))
      = argminUpTo (fun t => maskD D0' it i exclZone (i + 1 + t)) (k - (i + 1)) :=
    argminUpTo_congr _ _ (k - (i + 1))
      (fun t ht => hD (i + 1 + t) (by omega))
  simp only [rowOut]
  rw [hI, hIL, hIR, hD _ (argminUpTo_lt _ k hk)]

/-- The mutable state of `_mstump`.  The first eight fields are the arrays the
engine receives from the caller; `qtOdd`/`qtEven` are its two private buffers
(`QT_odd = QT.copy()`, `QT_even = QT.copy()`); `profile`/`indices` are the
output arrays. -/
structure EngineState where
  TA : ℕ → ℚ
  TB : ℕ → ℚ
  MT : ℕ → ℚ
  ST : ℕ → ℚ
  QT : ℕ → ℚ
  QTfirst : ℕ → ℚ
  muQ : ℕ → ℚ
  sigmaQ : ℕ → ℚ
  qtOdd : ℕ → ℚ
  qtEven : ℕ → ℚ
  profile : ℕ → WithTop ℚ
  indices : ℕ → ℤ × ℤ × ℤ

/-- The scalar parameters of `_mstump`. -/
structure MParams where
  m : ℕ
  k : ℕ
  exclZone : ℕ
  ignoreTrivial : Bool
  rangeStart : ℕ

/-- The buffer written in row `i`: `QT_even` for even `i`, `QT_odd` for odd. -/
def parityBuf (s : EngineState) (i : ℕ) : ℕ → ℚ :=
  if i % 2 = 0 then s.qtEven else s.qtOdd

/-- The buffer read in row `i`: the opposite-parity one. -/
def prevParityBuf (s : EngineState) (i : ℕ) : ℕ → ℚ :=
  if i % 2 = 0 then s.qtOdd else s.qtEven

theorem prevParityBuf_succ (s : EngineState) (c : ℕ) :
    prevParityBuf s (c + 1) = parityBuf s c := by
  unfold prevParityBuf parityBuf
  by_cases h : c % 2 = 0
  · have h2 : (c + 1) % 2 = 1 := by omega
    simp [h, h2]
  · have h2 : (c + 1) % 2 = 0 := by omega
    simp [h, h2]

/-- Store the freshly computed live buffer into the row's parity buffer. -/
def writeBufs (s : EngineState) (i : ℕ) (live : ℕ → ℚ) : EngineState :=
  if i % 2 = 0 then { s with qtEven := live } else { s with qtOdd := live }

/-- The (unmasked) squared distance profile computed in row `i` from a live
dot-product buffer, as a `WithTop ℚ`-valued vector. -/
def rowD0 (p : MParams) (s : EngineState) (live : ℕ → ℚ) (i : ℕ) :
    ℕ → WithTop ℚ :=
  fun j =>
    ((_calculate_squared_distance_profile p.m live (s.muQ i) (s.sigmaQ i)
        s.MT s.ST j : ℚ) : WithTop ℚ)

/-- The row result produced while processing row `i` from state `s`. -/
def rowRes (p : MParams) (s : EngineState) (i : ℕ) : RowRes :=
  rowOut
    (rowD0 p s
      (computeLive s.TA s.TB p.m i p.k s.QTfirst (prevParityBuf s i)
        (parityBuf s i)) i)
    i p.k p.exclZone p.ignoreTrivial

/-- One iteration of the outer `for i in range(range_start, range_stop)` loop
of `_mstump`. -/
def rowStep (p : MParams) (s : EngineState) (i : ℕ) : EngineState :=
  let live := computeLive s.TA s.TB p.m i p.k s.QTfirst (prevParityBuf s i)
    (parityBuf s i)
  let r := rowRes p s i
  let s1 := writeBufs s i live
  { s1 with
      profile := Function.update s1.profile (i - p.rangeStart) r.Psq,
      indices := Function.update s1.indices (i - p.rangeStart) (r.I, r.IL, r.IR) }

/-- The engine state after processing the first `c` rows
`rangeStart, …, rangeStart + c - 1`. -/
def engineRun (p : MParams) (s0 : EngineState) (c : ℕ) : EngineState :=
  (List.range' p.rangeStart c).foldl (rowStep p) s0

/-- The engine's state on entry to `_mstump`: the input arrays plus the two
private copies of `QT` and empty (`0`-filled) output arrays. -/
def initState (TA TB MT ST QT QTfirst muQ sigmaQ : ℕ → ℚ) : EngineState :=
  { TA := TA, TB := TB, MT := MT, ST := ST, QT := QT, QTfirst := QTfirst,
    muQ := muQ, sigmaQ := sigmaQ, qtOdd := QT, qtEven := QT,
    profile := fun _ => 0, indices := fun _ => (0, 0, 0) }

/-- Embedding of `_mstump(T_A, T_B, m, range_stop, excl_zone, M_T, Σ_T, QT,
QT_first, μ_Q, σ_Q, k, ignore_trivial, range_start)`: returns the
`profile` and `indices` output arrays. -/
def _mstump (TA TB : ℕ → ℚ) (m rangeStop exclZone : ℕ)
    (MT ST QT QTfirst muQ sigmaQ : ℕ → ℚ) (k : ℕ) (ignoreTrivial : Bool)
    (rangeStart : ℕ) : (ℕ → WithTop ℚ) × (ℕ → ℤ × ℤ × ℤ) :=
  let s := engineRun ⟨m, k, exclZone, ignoreTrivial, rangeStart⟩
    (initState TA TB MT ST QT QTfirst muQ sigmaQ) (rangeStop - rangeStart)
  (s.profile, s.indices)

theorem range'_concat1 (s c : ℕ) :
    List.range' s (c + 1) = List.range' s c ++ [s + c] := by
  have h := List.range'_append_1 s c 1
  rw [List.range'_one] at h
  rw [Nat.add_comm c 1]
  exact h.symm

theorem engineRun_succ (p : MParams) (s0 : EngineState) (c : ℕ) :
    engineRun p s0 (c + 1) = rowStep p (engineRun p s0 c) (p.rangeStart + c) := by
  unfold engineRun
  rw [range'_concat1, List.foldl_append]
  simp

/-- A row step never writes the engine's input arrays. -/
theorem rowStep_inputs (p : MParams) (s : EngineState) (i : ℕ) :
    (rowStep p s i).TA = s.TA ∧ (rowStep p s i).TB = s.TB ∧
    (rowStep p s i).MT = s.MT ∧ (rowStep p s i).ST = s.ST ∧
    (rowStep p s i).QT = s.QT ∧ (rowStep p s i).QTfirst = s.QTfirst ∧
    (rowStep p s i).muQ = s.muQ ∧ (rowStep p s i).sigmaQ = s.sigmaQ := by
  unfold rowStep writeBufs
  by_cases h : i % 2 = 0 <;> simp [h]

/-- The whole engine run never writes the input arrays. -/
theorem engineRun_inputs (p : MParams) (s0 : EngineState) (c : ℕ) :
    (engineRun p s0 c).TA = s0.TA ∧ (engineRun p s0 c).TB = s0.TB ∧
    (engineRun p s0 c).MT = s0.MT ∧ (engineRun p s0 c).ST = s0.ST ∧
    (engineRun p s0 c).QT = s0.QT ∧ (engineRun p s0 c).QTfirst = s0.QTfirst ∧
    (engineRun p s0 c).muQ = s0.muQ ∧ (engineRun p s0 c).sigmaQ = s0.sigmaQ := by
  induction c with
  | zero => exact ⟨rfl, rfl, rfl, rfl, rfl, rfl, rfl, rfl⟩
  | succ c ih =>
    rw [engineRun_succ]
    obtain ⟨h1, h2, h3, h4, h5, h6, h7, h8⟩ := ih
    obtain ⟨g1, g2, g3, g4, g5, g6, g7, g8⟩ :=
      rowStep_inputs p (engineRun p s0 c) (p.rangeStart + c)
    exact ⟨g1.trans h1, g2.trans h2, g3.trans h3, g4.trans h4, g5.trans h5,
      g6.trans h6, g7.trans h7, g8.trans h8⟩

/-- After processing row `i`, the row's parity buffer holds exactly the live
buffer computed in that row. -/
theorem rowStep_parityBuf (p : MParams) (s : EngineState) (i : ℕ) :
    parityBuf (rowStep p s i) i =
      computeLive s.TA s.TB p.m i p.k s.QTfirst (prevParityBuf s i)
        (parityBuf s i) := by
  unfold rowStep writeBufs parityBuf prevParityBuf
  by_cases h : i % 2 = 0 <;> simp [h]

theorem rowStep_profile (p : MParams) (s : EngineState) (i : ℕ) :
    (rowStep p s i).profile =
      Function.update s.profile (i - p.rangeStart) (rowRes p s i).Psq := by
  unfold rowStep writeBufs
  by_cases h : i % 2 = 0 <;> simp [h]

theorem rowStep_indices (p : MParams) (s : EngineState) (i : ℕ) :
    (rowStep p s i).indices =
      Function.update s.indices (i - p.rangeStart)
        ((rowRes p s i).I, (rowRes p s i).IL, (rowRes p s i).IR) := by
  unfold rowStep writeBufs
  by_cases h : i % 2 = 0 <;> simp [h]

/-- Stored outputs: position `t` of `profile`/`indices` holds the row result
computed at row `rangeStart + t` from the state after `t` rows. -/
theorem engineRun_stored (p : MParams) (s0 : EngineState) :
    ∀ c t, t < c →
      (engineRun p s0 c).indices t =
        ((rowRes p (engineRun p s0 t) (p.rangeStart + t)).I,
         (rowRes p (engineRun p s0 t) (p.rangeStart + t)).IL,
         (rowRes p (engineRun p s0 t) (p.rangeStart + t)).IR) ∧
      (engineRun p s0 c).profile t =
        (rowRes p (engineRun p s0 t) (p.rangeStart + t)).Psq := by
  intro c
  induction c with
  | zero => intro t ht; omega
  | succ c ih =>
    intro t ht
    rw [engineRun_succ, rowStep_indices, rowStep_profile]
    have hcan : p.rangeStart + c - p.rangeStart = c := by omega
    rw [hcan]
    rcases Nat.lt_succ_iff_lt_or_eq.mp ht with h | h
    · have hne : t ≠ c := by omega
      rw [Function.update_apply, Function.update_apply, if_neg hne, if_neg hne]
      exact ih t h
    · subst h
      rw [Function.update_apply, Function.update_apply, if_pos rfl, if_pos rfl]
      exact ⟨rfl, rfl⟩

/-- The live dot-product buffer computed while processing row `i`
(for `i ≥ rangeStart`): the column updates applied to the previous row's
parity buffer, with position `0` seeded from `QT_first[i]`. -/
def liveAt (p : MParams) (s0 : EngineState) (i : ℕ) : ℕ → ℚ :=
  let s := engineRun p s0 (i - p.rangeStart)
  computeLive s.TA s.TB p.m i p.k s.QTfirst (prevParityBuf s i) (parityBuf s i)

/-- The unmasked squared distance profile of row `i`. -/
def rowD0At (p : MParams) (s0 : EngineState) (i : ℕ) : ℕ → WithTop ℚ :=
  rowD0 p (engineRun p s0 (i - p.rangeStart)) (liveAt p s0 i) i

/-- The masked distance profile of row `i`, exactly as fed to the argmins. -/
def rowDistAt (p : MParams) (s0 : EngineState) (i : ℕ) : ℕ → WithTop ℚ :=
  maskD (rowD0At p s0 i) p.ignoreTrivial i p.exclZone

/-- The row result `(P, I, IL, IR)` of row `i`. -/
def rowResAt (p : MParams) (s0 : EngineState) (i : ℕ) : RowRes :=
  rowRes p (engineRun p s0 (i - p.rangeStart)) i

theorem rowResAt_eq (p : MParams) (s0 : EngineState) (i : ℕ) :
    rowResAt p s0 i =
      rowOut (rowD0At p s0 i) i p.k p.exclZone p.ignoreTrivial := rfl

/-- The stored outputs, written in terms of the per-row definitions: for any
engine row `i` (`rangeStart ≤ i < rangeStart + c`), position `i - rangeStart`
of the outputs holds `rowResAt` of row `i`. -/
theorem engineRun_stored_at (p : MParams) (s0 : EngineState) (c i : ℕ)
    (h1 : p.rangeStart ≤ i) (h2 : i < p.rangeStart + c) :
    (engineRun p s0 c).indices (i - p.rangeStart) =
      ((rowResAt p s0 i).I, (rowResAt p s0 i).IL, (rowResAt p s0 i).IR) ∧
    (engineRun p s0 c).profile (i - p.rangeStart) = (rowResAt p s0 i).Psq := by
  have ht : i - p.rangeStart < c := by omega
  have h := engineRun_stored p s0 c (i - p.rangeStart) ht
  have hi : p.rangeStart + (i - p.rangeStart) = i := by omega
  rw [hi] at h
  exact h

/-- After processing rows `rangeStart, …, i` the parity buffer of row `i`
holds the live buffer of row `i` (case `rangeStart = 1`, `i = c ≥ 1`). -/
theorem parityBuf_engineRun (p : MParams) (s0 : EngineState) (c : ℕ)
    (hrs : p.rangeStart = 1) (hc : 1 ≤ c) :
    parityBuf (engineRun p s0 c) c = liveAt p s0 c := by
  obtain ⟨cc, rfl⟩ : ∃ cc, c = cc + 1 := ⟨c - 1, by omega⟩
  rw [engineRun_succ, hrs]
  have h1 : 1 + cc = cc + 1 := by omega
  rw [h1, rowStep_parityBuf]
  unfold liveAt
  have h2 : cc + 1 - p.rangeStart = cc := by omega
  rw [h2]

/-- Exactness of the incremental recurrence: if `QT` holds the dot products
of query window `0` and `QT_first` holds the dot products against reference
window `0`, then after processing rows `1, …, c` the row-`c` parity buffer
holds the exact window dot products of query window `c` (columns `< k`). -/
theorem engine_buffer_exact (TA TB MT ST QT QTfirst muQ sigmaQ : ℕ → ℚ)
    (m k exclZone : ℕ) (it : Bool) (hm : 1 ≤ m)
    (hQT : ∀ j, j < k → QT j = windowDot TA TB m 0 j)
    (hQTf : ∀ i, QTfirst i = windowDot TA TB m i 0) :
    ∀ c j, j < k →
      parityBuf (engineRun ⟨m, k, exclZone, it, 1⟩
        (initState TA TB MT ST QT QTfirst muQ sigmaQ) c) c j =
      windowDot TA TB m c j := by
  intro c
  induction c with
  | zero =>
    intro j hj
    exact hQT j hj
  | succ c ih =>
    intro j hj
    rw [engineRun_succ]
    have h1 : (⟨m, k, exclZone, it, 1⟩ : MParams).rangeStart + c = c + 1 := by
      show 1 + c = c + 1
      omega
    rw [h1, rowStep_parityBuf]
    set p : MParams := ⟨m, k, exclZone, it, 1⟩ with hp
    set sc := engineRun p (initState TA TB MT ST QT QTfirst muQ sigmaQ) c with hsc
    obtain ⟨e1, e2, _, _, _, e6, _, _⟩ :=
      engineRun_inputs p (initState TA TB MT ST QT QTfirst muQ sigmaQ) c
    have e1' : sc.TA = TA := e1.trans rfl
    have e2' : sc.TB = TB := e2.trans rfl
    have e6' : sc.QTfirst = QTfirst := e6.trans rfl
    rw [computeLive_eval]
    by_cases h0 : j = 0
    · subst h0
      rw [if_pos rfl, e6']
      exact hQTf (c + 1)
    · rw [if_neg h0]
      have hjk : 1 ≤ j ∧ j < p.k := by
        refine ⟨by omega, hj⟩
      rw [if_pos hjk]
      rw [prevParityBuf_succ]
      unfold colVal
      rw [e1', e2']
      have hprev : parityBuf sc c (j - 1) = windowDot TA TB m c (j - 1) :=
        ih (j - 1) (by omega)
      rw [hprev]
      have hidx1 : c + 1 - 1 = c := by omega
      have hidx2 : c + 1 + m - 1 = c + m := by omega
      rw [hidx1, hidx2]
      exact (windowDot_recurrence TA TB m c j hm (by omega)).symm

/-- The error raised by input validation (spec §7 `InvalidInputError`). -/
inductive MstumpError where
  | invalidInput
deriving DecidableEq

/-- A time series as handed to the driver: its data plus whether its element
type is one the validator accepts. -/
structure Series where
  data : List ℚ
  dtypeSupported : Bool
deriving DecidableEq

/-- Modelled from the spec: `core.check_dtype` is imported by `mstump.py`
and its code is not under `src/`.  Spec §4.3/§7: the driver "validates both
series have a supported numeric element type; fails with `InvalidInputError`
otherwise".  It receives only the series (no `m`), as at both call sites in
`mstump`. -/
def check_dtype (T : Series) : Except MstumpError Unit :=
  if T.dtypeSupported then Except.ok () else Except.error MstumpError.invalidInput

/-- Total indexing into a series (`0` beyond the end; the driver never reads
beyond the end on valid inputs). -/
def seriesFn (T : Series) : ℕ → ℚ :=
  fun i => T.data.getD i 0

/-- Modelled from the spec: `_get_QT` is imported by `mstump.py` and its code
is not under `src/`.  Spec §6 (QT-seed provider): returns the QT vector for
row `start` and `QT_first[i]` = dot product of query window `i` with
reference window `0`. -/
def _get_QT (start : ℕ) (TA TB : ℕ → ℚ) (m : ℕ) : (ℕ → ℚ) × (ℕ → ℚ) :=
  (fun j => windowDot TA TB m start j, fun i => windowDot TA TB m i 0)

/-- `zone = int(np.ceil(m / 4))` as computed by `mstump`. -/
def stumpExclZone (m : ℕ) : ℕ :=
  (m + 3) / 4

/-- `if T_B is None: T_B = T_A`. -/
def effectiveTB (A : Series) (Bopt : Option Series) : Series :=
  match Bopt with
  | none => A
  | some B => B

/-- `if T_B is None: ignore_trivial = True`. -/
def effectiveIT (it : Bool) (Bopt : Option Series) : Bool :=
  match Bopt with
  | none => true
  | some _ => it

/-- Embedding of the driver `mstump(T_A, m, T_B=None, ignore_trivial=True)`.

The two external collaborators whose code is outside `src/` and whose output
cannot be fixed from the spec alone are passed as parameters:
`computeMeanStd` (spec §6 MeanStdProvider — its standard deviations are real
square roots, not representable exactly in `ℚ`) and `firstRowInit` (spec §6
FirstRowInitializer, called as `_get_first_stump_profile(start, T_A, T_B, m,
zone, M_T, Σ_T, ignore_trivial)`).

The source calls the JIT kernel under the name `_stump`; the only kernel
defined in the module is `_mstump`, so the call is embedded as `_mstump`
(see the claims about the driver for the discrepancy itself).  The module's
logger warnings are value-irrelevant and not modelled. -/
def mstump
    (computeMeanStd : List ℚ → ℕ → (ℕ → ℚ) × (ℕ → ℚ))
    (firstRowInit : ℕ → (ℕ → ℚ) → (ℕ → ℚ) → ℕ → ℕ → (ℕ → ℚ) → (ℕ → ℚ) →
      Bool → WithTop ℚ × (ℤ × ℤ × ℤ))
    (T_A : Series) (m : ℕ) (T_Bopt : Option Series) (ignore_trivial : Bool) :
    Except MstumpError (List (WithTop ℚ × ℤ × ℤ × ℤ)) :=
  match check_dtype T_A with
  | Except.error e => Except.error e
  | Except.ok _ =>
    let T_B := effectiveTB T_A T_Bopt
    let it := effectiveIT ignore_trivial T_Bopt
    match check_dtype T_B with
    | Except.error e => Except.error e
    | Except.ok _ =>
      let n := T_B.data.length
      let k := T_A.data.length - m + 1
      let l := n - m + 1
      let zone := stumpExclZone m
      let msA := computeMeanStd T_A.data m
      let msB := computeMeanStd T_B.data m
      let TAf := seriesFn T_A
      let TBf := seriesFn T_B
      let fr := firstRowInit 0 TAf TBf m zone msA.1 msA.2 it
      let qt := _get_QT 0 TAf TBf m
      let eng := _mstump TAf TBf m l zone msA.1 msA.2 qt.1 qt.2 msB.1 msB.2
        k it 1
      let profileArr : ℕ → WithTop ℚ :=
        fun t => if t = 0 then fr.1 else eng.1 (t - 1)
      let indicesArr : ℕ → ℤ × ℤ × ℤ :=
        fun t => if t = 0 then fr.2 else eng.2 (t - 1)
      Except.ok ((List.range l).map
        (fun t => (profileArr t, (indicesArr t).1, (indicesArr t).2.1,
          (indicesArr t).2.2)))

/-! ### Test fixtures used by witnesses and counterexamples -/

/-- All-zero array. -/
def zerosQ : ℕ → ℚ := fun _ => 0

/-- A ramp series of length 8. -/
def rampT : ℕ → ℚ := fun i => ([0, 1, 2, 3, 4, 5, 6, 7] : List ℚ).getD i 0

/-- A ramp series of length 5. -/
def rampFive : ℕ → ℚ := fun i => ([0, 1, 2, 3, 4] : List ℚ).getD i 0

/-- Exact row-0 dot products for `rampT`, `m = 3`. -/
def qtRamp : ℕ → ℚ := fun j => windowDot rampT rampT 3 0 j

/-- Exact column-0 dot products for `rampT`, `m = 3`. -/
def qtFirstRamp : ℕ → ℚ := fun i => windowDot rampT rampT 3 i 0

/-- Engine parameters for the `rampT` self-join: `m = 3`, `k = 6`,
`zone = 1`. -/
def pRamp : MParams := ⟨3, 6, 1, true, 1⟩

/-- Engine start state for the `rampT` self-join. -/
def s0Ramp : EngineState :=
  initState rampT rampT zerosQ zerosQ qtRamp qtFirstRamp zerosQ zerosQ

/-- Engine parameters for a degenerate self-join whose exclusion zone covers
all columns: `m = 4`, `k = 2`, `zone = 1`. -/
def pDeg : MParams := ⟨4, 2, 1, true, 1⟩

/-- Engine start state for the degenerate self-join on `rampFive`. -/
def s0Deg : EngineState :=
  initState rampFive rampFive zerosQ zerosQ zerosQ zerosQ zerosQ zerosQ

/-- A trivial MeanStdProvider stand-in. -/
def cmsZero : List ℚ → ℕ → (ℕ → ℚ) × (ℕ → ℚ) := fun _ _ => (zerosQ, zerosQ)

/-- A trivial FirstRowInitializer stand-in. -/
def friZero : ℕ → (ℕ → ℚ) → (ℕ → ℚ) → ℕ → ℕ → (ℕ → ℚ) → (ℕ → ℚ) →
    Bool → WithTop ℚ × (ℤ × ℤ × ℤ) :=
  fun _ _ _ _ _ _ _ _ => (0, (0, 0, 0))

/-! ### Claims -/

/-- Claim C7: omitting `T_B` sets `T_B := T_A` and forces the self-join flag
to `true` regardless of its supplied value, so the call is identical to an
explicit self-join call with `T_B = T_A` and the flag `true`. -/
theorem claim7_default_selfjoin
    (cms : List ℚ → ℕ → (ℕ → ℚ) × (ℕ → ℚ))
    (fri : ℕ → (ℕ → ℚ) → (ℕ → ℚ) → ℕ → ℕ → (ℕ → ℚ) → (ℕ → ℚ) →
      Bool → WithTop ℚ × (ℤ × ℤ × ℤ))
    (A : Series) (m : ℕ) (it : Bool) :
    mstump cms fri A m none it = mstump cms fri A m (some A) true := rfl

/-- Claim C9: the recurrence engine never mutates its input arrays — after
any number of rows, `T_A`, `T_B`, `M_T`, `Σ_T`, the caller's `QT`,
`QT_first`, `μ_Q` and `σ_Q` are unchanged; the engine works on its two
private copies (`qtOdd`/`qtEven`) of the supplied `QT` vector. -/
theorem claim9_no_input_mutation (p : MParams) (s0 : EngineState) (c : ℕ) :
    ((engineRun p s0 c).TA = s0.TA ∧ (engineRun p s0 c).TB = s0.TB ∧
     (engineRun p s0 c).MT = s0.MT ∧ (engineRun p s0 c).ST = s0.ST ∧
     (engineRun p s0 c).QT = s0.QT ∧
     (engineRun p s0 c).QTfirst = s0.QTfirst ∧
     (engineRun p s0 c).muQ = s0.muQ ∧
     (engineRun p s0 c).sigmaQ = s0.sigmaQ) ∧
    (∀ TA TB MT ST QT QTfirst muQ sigmaQ : ℕ → ℚ,
      (initState TA TB MT ST QT QTfirst muQ sigmaQ).qtOdd = QT ∧
      (initState TA TB MT ST QT QTfirst muQ sigmaQ).qtEven = QT) :=
  ⟨engineRun_inputs p s0 c, fun _ _ _ _ _ _ _ _ => ⟨rfl, rfl⟩⟩

/-- Claim C4: the `k-1` column updates of a row read only the previous row's
buffer, so applying them in any order with the same index set — in
particular the source's descending order versus ascending order — produces
the same buffer; moreover a row of parity `i` never writes the
opposite-parity buffer. -/
theorem claim4_column_order_irrelevant (TA TB : ℕ → ℚ) (m i k : ℕ)
    (prev cur : ℕ → ℚ) (L : List ℕ)
    (hL : ∀ j, j ∈ L ↔ (1 ≤ j ∧ j < k)) :
    applyCols TA TB m i prev L cur = applyCols TA TB m i prev (ascCols k) cur ∧
    applyCols TA TB m i prev (descCols k) cur =
      applyCols TA TB m i prev (ascCols k) cur ∧
    (∀ (p : MParams) (s : EngineState) (i2 : ℕ),
      (i2 % 2 = 0 → (rowStep p s i2).qtOdd = s.qtOdd) ∧
      (i2 % 2 = 1 → (rowStep p s i2).qtEven = s.qtEven)) := by
  refine ⟨?_, ?_, ?_⟩
  · funext j
    rw [applyCols_eval, applyCols_eval]
    by_cases h : 1 ≤ j ∧ j < k
    · rw [if_pos ((hL j).mpr h), if_pos ((mem_ascCols k j).mpr h)]
    · rw [if_neg (fun hm2 => h ((hL j).mp hm2)),
        if_neg (fun hm2 => h ((mem_ascCols k j).mp hm2))]
  · funext j
    rw [applyCols_eval, applyCols_eval]
    by_cases h : 1 ≤ j ∧ j < k
    · rw [if_pos ((mem_descCols k j).mpr h), if_pos ((mem_ascCols k j).mpr h)]
    · rw [if_neg (fun hm2 => h ((mem_descCols k j).mp hm2)),
        if_neg (fun hm2 => h ((mem_ascCols k j).mp hm2))]
  · intro p s i2
    constructor
    · intro h
      unfold rowStep writeBufs
      simp [h]
    · intro h
      unfold rowStep writeBufs
      simp [h]

/-- Witness for C4 at a concrete order `[2, 1]` with `k = 3`. -/
theorem claim4_witness :
    (∀ j, j ∈ ([2, 1] : List ℕ) ↔ (1 ≤ j ∧ j < 3)) ∧
    (applyCols zerosQ zerosQ 1 1 zerosQ [2, 1] zerosQ =
        applyCols zerosQ zerosQ 1 1 zerosQ (ascCols 3) zerosQ ∧
      applyCols zerosQ zerosQ 1 1 zerosQ (descCols 3) zerosQ =
        applyCols zerosQ zerosQ 1 1 zerosQ (ascCols 3) zerosQ ∧
      (∀ (p : MParams) (s : EngineState) (i2 : ℕ),
        (i2 % 2 = 0 → (rowStep p s i2).qtOdd = s.qtOdd) ∧
        (i2 % 2 = 1 → (rowStep p s i2).qtEven = s.qtEven))) := by
  have hL : ∀ j, j ∈ ([2, 1] : List ℕ) ↔ (1 ≤ j ∧ j < 3) := by
    intro j
    simp only [List.mem_cons, List.not_mem_nil, or_false]
    omega
  exact ⟨hL, claim4_column_order_irrelevant zerosQ zerosQ 1 1 3 zerosQ zerosQ
    [2, 1] hL⟩

/-- Claim C3 (amended): the driver raises `InvalidInputError` exactly when a
series has an unsupported element type; it performs no validation of `m`
(neither `m < 2` nor `m` exceeding a series length is rejected). -/
theorem claim3_validation_amended
    (cms : List ℚ → ℕ → (ℕ → ℚ) × (ℕ → ℚ))
    (fri : ℕ → (ℕ → ℚ) → (ℕ → ℚ) → ℕ → ℕ → (ℕ → ℚ) → (ℕ → ℚ) →
      Bool → WithTop ℚ × (ℤ × ℤ × ℤ))
    (A : Series) (m : ℕ) (Bopt : Option Series) (it : Bool) :
    mstump cms fri A m Bopt it = Except.error MstumpError.invalidInput ↔
      (A.dtypeSupported = false ∨
        (effectiveTB A Bopt).dtypeSupported = false) := by
  by_cases hA : A.dtypeSupported = true
  · by_cases hB : (effectiveTB A Bopt).dtypeSupported = true
    · simp [mstump, check_dtype, hA, hB]
    · rw [Bool.not_eq_true] at hB
      simp [mstump, check_dtype, hA, hB]
  · rw [Bool.not_eq_true] at hA
    simp [mstump, check_dtype, hA]

/-- Claim C3 counterexample: with a supported dtype and `m = 1 < 2` the
driver returns a result instead of raising `InvalidInputError`. -/
theorem claim3_counterexample :
    ∃ rows, mstump cmsZero friZero ⟨[1, 2, 3], true⟩ 1 none true =
      Except.ok rows :=
  ⟨_, rfl⟩

theorem rowOut_IL2 (D0 : ℕ → WithTop ℚ) (i k z : ℕ) (it : Bool) :
    (rowOut D0 i k z it).IL =
      (if it ∧ 0 < i then
        (if i - z ≤ argminUpTo (maskD D0 it i z) (min i k) ∧
            argminUpTo (maskD D0 it i z) (min i k) < i + z + 1 then -1
         else (argminUpTo (maskD D0 it i z) (min i k) : ℤ))
      else -1) := rfl

theorem rowOut_IR2 (D0 : ℕ → WithTop ℚ) (i k z : ℕ) (it : Bool) :
    (rowOut D0 i k z it).IR =
      (if it ∧ i + 1 < k then
        (if i - z ≤ i + 1 +
              argminUpTo (fun t => maskD D0 it i z (i + 1 + t)) (k - (i + 1)) ∧
            i + 1 + argminUpTo (fun t => maskD D0 it i z (i + 1 + t))
              (k - (i + 1)) < i + z + 1 then -1
         else ((i + 1 + argminUpTo (fun t => maskD D0 it i z (i + 1 + t))
            (k - (i + 1)) : ℕ) : ℤ))
      else -1) := rfl

/-- Row-level left/right index bounds for any distance profile. -/
theorem rowOut_left_right (D0 : ℕ → WithTop ℚ) (i k z : ℕ) (it : Bool) :
    ((rowOut D0 i k z it).IL ≠ -1 → (rowOut D0 i k z it).IL < (i : ℤ)) ∧
    ((rowOut D0 i k z it).IR ≠ -1 → (i : ℤ) < (rowOut D0 i k z it).IR) ∧
    (it = false →
      (rowOut D0 i k z it).IL = -1 ∧ (rowOut D0 i k z it).IR = -1) := by
  refine ⟨?_, ?_, ?_⟩
  · rw [rowOut_IL2]
    by_cases hc : it = true ∧ 0 < i
    · rw [if_pos hc]
      by_cases hz2 : i - z ≤ argminUpTo (maskD D0 it i z) (min i k) ∧
          argminUpTo (maskD D0 it i z) (min i k) < i + z + 1
      · rw [if_pos hz2]
        intro h
        exact absurd rfl h
      · rw [if_neg hz2]
        intro _
        have hlt : argminUpTo (maskD D0 it i z) (min i k) < i := by
          rcases Nat.eq_zero_or_pos (min i k) with h0 | h0
          · rw [h0]
            exact hc.2
          · exact lt_of_lt_of_le (argminUpTo_lt _ _ h0) (min_le_left i k)
        exact_mod_cast hlt
    · rw [if_neg hc]
      intro h
      exact absurd rfl h
  · rw [rowOut_IR2]
    by_cases hc : it = true ∧ i + 1 < k
    · rw [if_pos hc]
      by_cases hz2 : i - z ≤ i + 1 +
            argminUpTo (fun t => maskD D0 it i z (i + 1 + t)) (k - (i + 1)) ∧
          i + 1 + argminUpTo (fun t => maskD D0 it i z (i + 1 + t))
            (k - (i + 1)) < i + z + 1
      · rw [if_pos hz2]
        intro h
        exact absurd rfl h
      · rw [if_neg hz2]
        intro _
        exact_mod_cast (by omega :
          i < i + 1 + argminUpTo (fun t => maskD D0 it i z (i + 1 + t))
            (k - (i + 1)))
    · rw [if_neg hc]
      intro h
      exact absurd rfl h
  · intro hf
    rw [rowOut_IL2, rowOut_IR2, hf]
    constructor
    · rw [if_neg (fun hcon => Bool.false_ne_true hcon.1)]
    · rw [if_neg (fun hcon => Bool.false_ne_true hcon.1)]

/-- Claim C5: for every row `i` emitted by the engine, `leftIndex < i`
whenever `leftIndex ≠ -1`, `rightIndex > i` whenever `rightIndex ≠ -1`, and
both are `-1` whenever the self-join flag is false. -/
theorem claim5_left_right_indices (p : MParams) (s0 : EngineState) (c i : ℕ)
    (h1 : p.rangeStart ≤ i) (h2 : i < p.rangeStart + c) :
    (((engineRun p s0 c).indices (i - p.rangeStart)).2.1 ≠ -1 →
      ((engineRun p s0 c).indices (i - p.rangeStart)).2.1 < (i : ℤ)) ∧
    (((engineRun p s0 c).indices (i - p.rangeStart)).2.2 ≠ -1 →
      (i : ℤ) < ((engineRun p s0 c).indices (i - p.rangeStart)).2.2) ∧
    (p.ignoreTrivial = false →
      ((engineRun p s0 c).indices (i - p.rangeStart)).2.1 = -1 ∧
      ((engineRun p s0 c).indices (i - p.rangeStart)).2.2 = -1) := by
  obtain ⟨hind, _⟩ := engineRun_stored_at p s0 c i h1 h2
  rw [hind, rowResAt_eq]
  exact rowOut_left_right (rowD0At p s0 i) i p.k p.exclZone p.ignoreTrivial

/-- Witness for C5 on the `rampT` self-join fixture, row `i = 1`. -/
theorem claim5_witness :
    (pRamp.rangeStart ≤ 1 ∧ 1 < pRamp.rangeStart + 1) ∧
    ((((engineRun pRamp s0Ramp 1).indices (1 - pRamp.rangeStart)).2.1 ≠ -1 →
      ((engineRun pRamp s0Ramp 1).indices (1 - pRamp.rangeStart)).2.1 <
        ((1 : ℕ) : ℤ)) ∧
    (((engineRun pRamp s0Ramp 1).indices (1 - pRamp.rangeStart)).2.2 ≠ -1 →
      ((1 : ℕ) : ℤ) <
        ((engineRun pRamp s0Ramp 1).indices (1 - pRamp.rangeStart)).2.2) ∧
    (pRamp.ignoreTrivial = false →
      ((engineRun pRamp s0Ramp 1).indices (1 - pRamp.rangeStart)).2.1 = -1 ∧
      ((engineRun pRamp s0Ramp 1).indices (1 - pRamp.rangeStart)).2.2 = -1)) :=
  ⟨⟨by decide, by decide⟩,
    claim5_left_right_indices pRamp s0Ramp 1 1 (by decide) (by decide)⟩

/-- Claim C8: the reported best-match index of every engine row is the
smallest index minimizing the masked distance profile (ties resolve to the
lowest index), and the reported distance is taken from the profile at that
index (the source stores `sqrt` of exactly this stored radicand). -/
theorem claim8_argmin_spec (p : MParams) (s0 : EngineState) (c i : ℕ)
    (h1 : p.rangeStart ≤ i) (h2 : i < p.rangeStart + c) (hk : 1 ≤ p.k) :
    ∃ In : ℕ, In < p.k ∧
      ((engineRun p s0 c).indices (i - p.rangeStart)).1 = (In : ℤ) ∧
      (engineRun p s0 c).profile (i - p.rangeStart) = rowDistAt p s0 i In ∧
      (∀ j, j < p.k → rowDistAt p s0 i In ≤ rowDistAt p s0 i j) ∧
      (∀ j, j < p.k → rowDistAt p s0 i j = rowDistAt p s0 i In → In ≤ j) := by
  obtain ⟨hind, hprof⟩ := engineRun_stored_at p s0 c i h1 h2
  refine ⟨argminUpTo (rowDistAt p s0 i) p.k, argminUpTo_lt _ _ hk, ?_, ?_, ?_, ?_⟩
  · rw [hind, rowResAt_eq]
    rfl
  · rw [hprof, rowResAt_eq]
    rfl
  · intro j hj
    exact argminUpTo_min (rowDistAt p s0 i) p.k j hj
  · intro j hj hEq
    by_contra hcon
    push_neg at hcon
    have hlt := argminUpTo_first (rowDistAt p s0 i) p.k j hcon
    rw [hEq] at hlt
    exact lt_irrefl _ hlt

/-- Witness for C8 on the `rampT` self-join fixture, row `i = 2`. -/
theorem claim8_witness :
    (pRamp.rangeStart ≤ 2 ∧ 2 < pRamp.rangeStart + 2 ∧ 1 ≤ pRamp.k) ∧
    (∃ In : ℕ, In < pRamp.k ∧
      ((engineRun pRamp s0Ramp 2).indices (2 - pRamp.rangeStart)).1 = (In : ℤ) ∧
      (engineRun pRamp s0Ramp 2).profile (2 - pRamp.rangeStart) =
        rowDistAt pRamp s0Ramp 2 In ∧
      (∀ j, j < pRamp.k →
        rowDistAt pRamp s0Ramp 2 In ≤ rowDistAt pRamp s0Ramp 2 j) ∧
      (∀ j, j < pRamp.k →
        rowDistAt pRamp s0Ramp 2 j = rowDistAt pRamp s0Ramp 2 In → In ≤ j)) :=
  ⟨⟨by decide, by decide, by decide⟩,
    claim8_argmin_spec pRamp s0Ramp 2 2 (by decide) (by decide) (by decide)⟩

/-- Row-level description of a fully masked row: every profile entry is `⊤`
and the emitted row is `(⊤, 0, -1, -1)`. -/
theorem rowOut_all_masked (D0 : ℕ → WithTop ℚ) (i k z : ℕ)
    (hi : 1 ≤ i) (hiz : i ≤ z) (hkz : k ≤ i + z + 1) (hk : 1 ≤ k) :
    (∀ j, j < k → maskD D0 true i z j = ⊤) ∧
    rowOut D0 i k z true = ⟨⊤, 0, -1, -1⟩ := by
  have hmask : ∀ j, j < k → maskD D0 true i z j = ⊤ := by
    intro j hj
    unfold maskD
    rw [if_pos ⟨rfl, by omega, by omega⟩]
  refine ⟨hmask, ?_⟩
  have hI : argminUpTo (maskD D0 true i z) k = 0 := argminUpTo_all_top _ k hmask
  have hIL : argminUpTo (maskD D0 true i z) (min i k) = 0 :=
    argminUpTo_all_top _ _
      (fun j hj => hmask j (lt_of_lt_of_le hj (min_le_right i k)))
  have hIR : argminUpTo (fun t => maskD D0 true i z (i + 1 + t)) (k - (i + 1))
      = 0 :=
    argminUpTo_all_top _ _ (fun t ht => hmask (i + 1 + t) (by omega))
  simp only [rowOut]
  rw [hI, hIL, hIR, hmask 0 (by omega)]
  rw [if_pos (show True ∧ 0 < i from ⟨trivial, hi⟩)]
  rw [if_pos (show i - z ≤ 0 ∧ 0 < i + z + 1 by omega)]
  by_cases hik : i + 1 < k
  · rw [if_pos (show True ∧ i + 1 < k from ⟨trivial, hik⟩)]
    rw [if_pos (show i - z ≤ i + 1 + 0 ∧ i + 1 + 0 < i + z + 1 by omega)]
    norm_num
  · rw [if_neg (fun hcon => hik hcon.2)]
    norm_num

/-- Claim C10: on a self-join row whose exclusion zone covers all `k`
columns, every masked profile entry is `+inf` and the engine emits best
index `0` (inside the zone) with distance `+inf`, while both left and right
indices resolve to `-1`. -/
theorem claim10_all_masked_row (p : MParams) (s0 : EngineState) (c i : ℕ)
    (h1 : p.rangeStart ≤ i) (h2 : i < p.rangeStart + c) (hi : 1 ≤ i)
    (hit : p.ignoreTrivial = true) (hiz : i ≤ p.exclZone)
    (hkz : p.k ≤ i + p.exclZone + 1) (hk : 1 ≤ p.k) :
    (∀ j, j < p.k → rowDistAt p s0 i j = ⊤) ∧
    (engineRun p s0 c).profile (i - p.rangeStart) = ⊤ ∧
    (engineRun p s0 c).indices (i - p.rangeStart) = (0, -1, -1) := by
  obtain ⟨hind, hprof⟩ := engineRun_stored_at p s0 c i h1 h2
  have h := rowOut_all_masked (rowD0At p s0 i) i p.k p.exclZone hi hiz hkz hk
  refine ⟨?_, ?_, ?_⟩
  · intro j hj
    unfold rowDistAt
    rw [hit]
    exact h.1 j hj
  · rw [hprof, rowResAt_eq, hit, h.2]
  · rw [hind, rowResAt_eq, hit, h.2]

/-- Witness for C10: degenerate self-join fixture (`m = 4`, `k = 2`,
`zone = 1`), row `i = 1`. -/
theorem claim10_witness :
    (pDeg.rangeStart ≤ 1 ∧ 1 < pDeg.rangeStart + 1 ∧
      pDeg.ignoreTrivial = true ∧ 1 ≤ pDeg.exclZone ∧
      pDeg.k ≤ 1 + pDeg.exclZone + 1 ∧ 1 ≤ pDeg.k) ∧
    ((∀ j, j < pDeg.k → rowDistAt pDeg s0Deg 1 j = ⊤) ∧
     (engineRun pDeg s0Deg 1).profile (1 - pDeg.rangeStart) = ⊤ ∧
     (engineRun pDeg s0Deg 1).indices (1 - pDeg.rangeStart) = (0, -1, -1)) :=
  ⟨⟨by decide, by decide, by decide, by decide, by decide, by decide⟩,
    claim10_all_masked_row pDeg s0Deg 1 1 (by decide) (by decide) (by decide)
      (by decide) (by decide) (by decide) (by decide)⟩

/-- `int(np.ceil(m / 4))` equals the natural `(m + 3) / 4` the embedding
computes. -/
theorem stumpExclZone_eq_ceil (m : ℕ) :
    ((stumpExclZone m : ℕ) : ℤ) = Int.ceil ((m : ℚ) / 4) := by
  have hz1 : 4 * stumpExclZone m ≤ m + 3 := by
    unfold stumpExclZone
    omega
  have hz3 : m ≤ 4 * stumpExclZone m := by
    unfold stumpExclZone
    omega
  rw [eq_comm, Int.ceil_eq_iff]
  constructor
  · rw [lt_div_iff₀ (by norm_num : (0 : ℚ) < 4)]
    have h1 : ((4 * stumpExclZone m : ℕ) : ℚ) ≤ ((m + 3 : ℕ) : ℚ) := by
      exact_mod_cast hz1
    push_cast at h1 ⊢
    linarith
  · rw [div_le_iff₀ (by norm_num : (0 : ℚ) < 4)]
    have h3 : ((m : ℕ) : ℚ) ≤ ((4 * stumpExclZone m : ℕ) : ℚ) := by
      exact_mod_cast hz3
    push_cast at h3 ⊢
    linarith

/-- The engine's unmasked profile entries are never `+inf`. -/
theorem rowD0At_ne_top (p : MParams) (s0 : EngineState) (i j : ℕ) :
    rowD0At p s0 i j ≠ ⊤ := by
  unfold rowD0At rowD0
  exact WithTop.coe_ne_top

/-- If some column survives outside the zone, the best-match argmin cannot
land inside the zone. -/
theorem argmin_outside_zone (D0 : ℕ → WithTop ℚ) (i k z j0 : ℕ)
    (hj0 : j0 < k) (hj0z : ¬(i - z ≤ j0 ∧ j0 < i + z + 1))
    (hD0 : ∀ j, j < k → D0 j ≠ ⊤) :
    ¬(i - z ≤ argminUpTo (maskD D0 true i z) k ∧
      argminUpTo (maskD D0 true i z) k < i + z + 1) := by
  intro hin
  have h1 : maskD D0 true i z (argminUpTo (maskD D0 true i z) k) = ⊤ := by
    unfold maskD
    rw [if_pos ⟨rfl, hin.1, hin.2⟩]
  have h2 : maskD D0 true i z j0 = D0 j0 := by
    unfold maskD
    rw [if_neg (fun hcon => hj0z ⟨hcon.2.1, hcon.2.2⟩)]
  have h3 := argminUpTo_min (maskD D0 true i z) k j0 hj0
  rw [h1, h2] at h3
  exact hD0 j0 hj0 (top_le_iff.mp h3)

/-- Claim C2 (amended): for self-join rows the zone half-width used by the
driver equals `ceil(m/4)`, the interval `[max(0, i-zone), i+zone]` of the
distance profile is `+inf` before any argmin, and neither the left nor the
right index (when not `-1`) falls inside `[i-zone, i+zone]`; the best index
also avoids the zone provided at least one column lies outside it (when the
zone covers all `k` columns the all-`inf` argmin degenerates to index `0` —
see the counterexample and C10). -/
theorem claim2_exclusion_zone_amended (p : MParams) (s0 : EngineState)
    (c i j0 : ℕ) (h1 : p.rangeStart ≤ i) (h2 : i < p.rangeStart + c)
    (hit : p.ignoreTrivial = true) (hz : p.exclZone = stumpExclZone p.m)
    (hj0 : j0 < p.k)
    (hj0z : ¬(i - p.exclZone ≤ j0 ∧ j0 < i + p.exclZone + 1)) :
    ((p.exclZone : ℤ) = Int.ceil ((p.m : ℚ) / 4)) ∧
    (∀ j, j < p.k → (i - p.exclZone ≤ j ∧ j < i + p.exclZone + 1) →
      rowDistAt p s0 i j = ⊤) ∧
    (∃ In : ℕ, ((engineRun p s0 c).indices (i - p.rangeStart)).1 = (In : ℤ) ∧
      ¬(i - p.exclZone ≤ In ∧ In < i + p.exclZone + 1)) ∧
    (((engineRun p s0 c).indices (i - p.rangeStart)).2.1 ≠ -1 →
      ∃ ILn : ℕ,
        ((engineRun p s0 c).indices (i - p.rangeStart)).2.1 = (ILn : ℤ) ∧
        ¬(i - p.exclZone ≤ ILn ∧ ILn < i + p.exclZone + 1)) ∧
    (((engineRun p s0 c).indices (i - p.rangeStart)).2.2 ≠ -1 →
      ∃ IRn : ℕ,
        ((engineRun p s0 c).indices (i - p.rangeStart)).2.2 = (IRn : ℤ) ∧
        ¬(i - p.exclZone ≤ IRn ∧ IRn < i + p.exclZone + 1)) := by
  obtain ⟨hind, _⟩ := engineRun_stored_at p s0 c i h1 h2
  refine ⟨?_, ?_, ?_, ?_, ?_⟩
  · rw [hz]
    exact stumpExclZone_eq_ceil p.m
  · intro j hj hjz
    unfold rowDistAt maskD
    rw [hit]
    rw [if_pos ⟨rfl, hjz.1, hjz.2⟩]
  · refine ⟨argminUpTo (maskD (rowD0At p s0 i) true i p.exclZone) p.k, ?_, ?_⟩
    · rw [hind, rowResAt_eq, rowOut_I, hit]
    · exact argmin_outside_zone (rowD0At p s0 i) i p.k p.exclZone j0 hj0 hj0z
        (fun j _ => rowD0At_ne_top p s0 i j)
  · rw [hind, rowResAt_eq]
    rw [show ((rowOut (rowD0At p s0 i) i p.k p.exclZone p.ignoreTrivial).I,
        (rowOut (rowD0At p s0 i) i p.k p.exclZone p.ignoreTrivial).IL,
        (rowOut (rowD0At p s0 i) i p.k p.exclZone p.ignoreTrivial).IR).2.1 =
      (rowOut (rowD0At p s0 i) i p.k p.exclZone p.ignoreTrivial).IL from rfl]
    rw [rowOut_IL2, hit]
    by_cases hc : (true = true) ∧ 0 < i
    · rw [if_pos hc]
      by_cases hz2 : i - p.exclZone ≤
          argminUpTo (maskD (rowD0At p s0 i) true i p.exclZone) (min i p.k) ∧
          argminUpTo (maskD (rowD0At p s0 i) true i p.exclZone) (min i p.k) <
            i + p.exclZone + 1
      · rw [if_pos hz2]
        intro hne
        exact absurd rfl hne
      · rw [if_neg hz2]
        intro _
        exact ⟨argminUpTo (maskD (rowD0At p s0 i) true i p.exclZone)
          (min i p.k), rfl, hz2⟩
    · rw [if_neg hc]
      intro hne
      exact absurd rfl hne
  · rw [hind, rowResAt_eq]
    rw [show ((rowOut (rowD0At p s0 i) i p.k p.exclZone p.ignoreTrivial).I,
        (rowOut (rowD0At p s0 i) i p.k p.exclZone p.ignoreTrivial).IL,
        (rowOut (rowD0At p s0 i) i p.k p.exclZone p.ignoreTrivial).IR).2.2 =
      (rowOut (rowD0At p s0 i) i p.k p.exclZone p.ignoreTrivial).IR from rfl]
    rw [rowOut_IR2, hit]
    by_cases hc : (true = true) ∧ i + 1 < p.k
    · rw [if_pos hc]
      by_cases hz2 : i - p.exclZone ≤ i + 1 +
            argminUpTo (fun t => maskD (rowD0At p s0 i) true i p.exclZone
              (i + 1 + t)) (p.k - (i + 1)) ∧
          i + 1 + argminUpTo (fun t => maskD (rowD0At p s0 i) true i
            p.exclZone (i + 1 + t)) (p.k - (i + 1)) < i + p.exclZone + 1
      · rw [if_pos hz2]
        intro hne
        exact absurd rfl hne
      · rw [if_neg hz2]
        intro _
        exact ⟨i + 1 + argminUpTo (fun t => maskD (rowD0At p s0 i) true i
          p.exclZone (i + 1 + t)) (p.k - (i + 1)), rfl, hz2⟩
    · rw [if_neg hc]
      intro hne
      exact absurd rfl hne

/-- Witness for C2 (amended) on the `rampT` self-join fixture, row `i = 1`,
outside column `j0 = 3`. -/
theorem claim2_witness :
    (pRamp.rangeStart ≤ 1 ∧ 1 < pRamp.rangeStart + 1 ∧
      pRamp.ignoreTrivial = true ∧ pRamp.exclZone = stumpExclZone pRamp.m ∧
      3 < pRamp.k ∧
      ¬(1 - pRamp.exclZone ≤ 3 ∧ 3 < 1 + pRamp.exclZone + 1)) ∧
    (((pRamp.exclZone : ℤ) = Int.ceil ((pRamp.m : ℚ) / 4)) ∧
    (∀ j, j < pRamp.k →
      (1 - pRamp.exclZone ≤ j ∧ j < 1 + pRamp.exclZone + 1) →
      rowDistAt pRamp s0Ramp 1 j = ⊤) ∧
    (∃ In : ℕ,
      ((engineRun pRamp s0Ramp 1).indices (1 - pRamp.rangeStart)).1 =
        (In : ℤ) ∧
      ¬(1 - pRamp.exclZone ≤ In ∧ In < 1 + pRamp.exclZone + 1)) ∧
    (((engineRun pRamp s0Ramp 1).indices (1 - pRamp.rangeStart)).2.1 ≠ -1 →
      ∃ ILn : ℕ,
        ((engineRun pRamp s0Ramp 1).indices (1 - pRamp.rangeStart)).2.1 =
          (ILn : ℤ) ∧
        ¬(1 - pRamp.exclZone ≤ ILn ∧ ILn < 1 + pRamp.exclZone + 1)) ∧
    (((engineRun pRamp s0Ramp 1).indices (1 - pRamp.rangeStart)).2.2 ≠ -1 →
      ∃ IRn : ℕ,
        ((engineRun pRamp s0Ramp 1).indices (1 - pRamp.rangeStart)).2.2 =
          (IRn : ℤ) ∧
        ¬(1 - pRamp.exclZone ≤ IRn ∧ IRn < 1 + pRamp.exclZone + 1))) :=
  ⟨⟨by decide, by decide, by decide, by decide, by decide, by decide⟩,
    claim2_exclusion_zone_amended pRamp s0Ramp 1 1 3 (by decide) (by decide)
      (by decide) (by decide) (by decide) (by decide)⟩

/-- Claim C2 counterexample: on the self-join `T = [0,1,2,3,4]` with `m = 4`
(`zone = ceil(4/4) = 1`, `k = 2`), the zone of row `i = 1` covers both
columns, the whole profile is masked, and `_mstump` returns best index `0`,
which lies inside `[i - zone, i + zone] = [0, 2]` — contradicting the claim
that no returned index falls within the zone. -/
theorem claim2_counterexample :
    (_mstump rampFive rampFive 4 2 1 zerosQ zerosQ zerosQ zerosQ zerosQ
        zerosQ 2 true 1).2 0 = (0, -1, -1) ∧
    ((1 : ℤ) - 1 ≤ 0 ∧ (0 : ℤ) ≤ 1 + 1) := by
  constructor
  · decide
  · decide

/-- Brute-force (unmasked) squared distance profile of row `i`: the kernel
applied to directly computed window dot products — the spec-side comparator
for the incremental recurrence. -/
def bruteD0 (TA TB : ℕ → ℚ) (m : ℕ) (muQ sigmaQ MT ST : ℕ → ℚ) (i : ℕ) :
    ℕ → WithTop ℚ :=
  fun j =>
    ((_calculate_squared_distance_profile m (fun j2 => windowDot TA TB m i j2)
        (muQ i) (sigmaQ i) MT ST j : ℚ) : WithTop ℚ)

/-- Claim C1: starting from exact row-0 dot products (`QT`) and exact
column-0 dot products (`QT_first`), the live buffer produced for every
engine row `i ≥ 1` by the incremental update equals the directly computed
window dot products at every column `< k`, so the row's masked distance
profile — and hence its stored profile value — equals the brute-force one. -/
theorem claim1_recurrence_matches_bruteforce
    (TA TB MT ST QT QTf muQ sigQ : ℕ → ℚ) (m k exclZone rangeStop : ℕ)
    (it : Bool) (hm : 1 ≤ m) (hk : 1 ≤ k)
    (hQT : ∀ j, j < k → QT j = windowDot TA TB m 0 j)
    (hQTf : ∀ i2, QTf i2 = windowDot TA TB m i2 0)
    (i : ℕ) (h1 : 1 ≤ i) (h2 : i < rangeStop) :
    (∀ j, j < k →
      parityBuf (engineRun ⟨m, k, exclZone, it, 1⟩
        (initState TA TB MT ST QT QTf muQ sigQ) i) i j =
      windowDot TA TB m i j) ∧
    (∀ j, j < k →
      rowDistAt ⟨m, k, exclZone, it, 1⟩
        (initState TA TB MT ST QT QTf muQ sigQ) i j =
      maskD (bruteD0 TA TB m muQ sigQ MT ST i) it i exclZone j) ∧
    (_mstump TA TB m rangeStop exclZone MT ST QT QTf muQ sigQ k it 1).1
        (i - 1) =
      (rowOut (bruteD0 TA TB m muQ sigQ MT ST i) i k exclZone it).Psq := by
  have part1 := engine_buffer_exact TA TB MT ST QT QTf muQ sigQ m k exclZone
    it hm hQT hQTf i
  have hlive : ∀ j, j < k →
      liveAt ⟨m, k, exclZone, it, 1⟩
        (initState TA TB MT ST QT QTf muQ sigQ) i j =
      windowDot TA TB m i j := by
    intro j hj
    have hpb := parityBuf_engineRun ⟨m, k, exclZone, it, 1⟩
      (initState TA TB MT ST QT QTf muQ sigQ) i rfl h1
    rw [← hpb]
    exact part1 j hj
  have hD0 : ∀ j, j < k →
      rowD0At ⟨m, k, exclZone, it, 1⟩
        (initState TA TB MT ST QT QTf muQ sigQ) i j =
      bruteD0 TA TB m muQ sigQ MT ST i j := by
    intro j hj
    obtain ⟨_, _, e3, e4, _, _, e7, e8⟩ :=
      engineRun_inputs ⟨m, k, exclZone, it, 1⟩
        (initState TA TB MT ST QT QTf muQ sigQ) (i - 1)
    have e3' : (engineRun ⟨m, k, exclZone, it, 1⟩
        (initState TA TB MT ST QT QTf muQ sigQ) (i - 1)).MT = MT :=
      e3.trans rfl
    have e4' : (engineRun ⟨m, k, exclZone, it, 1⟩
        (initState TA TB MT ST QT QTf muQ sigQ) (i - 1)).ST = ST :=
      e4.trans rfl
    have e7' : (engineRun ⟨m, k, exclZone, it, 1⟩
        (initState TA TB MT ST QT QTf muQ sigQ) (i - 1)).muQ = muQ :=
      e7.trans rfl
    have e8' : (engineRun ⟨m, k, exclZone, it, 1⟩
        (initState TA TB MT ST QT QTf muQ sigQ) (i - 1)).sigmaQ = sigQ :=
      e8.trans rfl
    simp only [rowD0At, rowD0, bruteD0, _calculate_squared_distance_profile]
    rw [e3', e4', e7', e8', hlive j hj]
  refine ⟨part1, ?_, ?_⟩
  · intro j hj
    show maskD (rowD0At ⟨m, k, exclZone, it, 1⟩
        (initState TA TB MT ST QT QTf muQ sigQ) i) it i exclZone j =
      maskD (bruteD0 TA TB m muQ sigQ MT ST i) it i exclZone j
    exact maskD_congr _ _ it i exclZone k hD0 j hj
  · have h1' : (⟨m, k, exclZone, it, 1⟩ : MParams).rangeStart ≤ i := h1
    have h2' : i < (⟨m, k, exclZone, it, 1⟩ : MParams).rangeStart +
        (rangeStop - 1) := by
      show i < 1 + (rangeStop - 1)
      omega
    obtain ⟨_, hprof⟩ := engineRun_stored_at ⟨m, k, exclZone, it, 1⟩
      (initState TA TB MT ST QT QTf muQ sigQ) (rangeStop - 1) i h1' h2'
    have hPsq : (rowResAt ⟨m, k, exclZone, it, 1⟩
        (initState TA TB MT ST QT QTf muQ sigQ) i).Psq =
        (rowOut (bruteD0 TA TB m muQ sigQ MT ST i) i k exclZone it).Psq := by
      rw [rowResAt_eq]
      exact congrArg RowRes.Psq
        (rowOut_congr _ _ i k exclZone it hk hD0)
    exact hprof.trans hPsq

/-- Witness for C1 on the `rampT` self-join fixture (`m = 3`, `k = 6`),
row `i = 2`. -/
theorem claim1_witness :
    ((1 ≤ 3) ∧ (1 ≤ 6) ∧
     (∀ j, j < 6 → qtRamp j = windowDot rampT rampT 3 0 j) ∧
     (∀ i2, qtFirstRamp i2 = windowDot rampT rampT 3 i2 0) ∧
     (1 ≤ 2 ∧ 2 < 6)) ∧
    ((∀ j, j < 6 →
      parityBuf (engineRun ⟨3, 6, 1, true, 1⟩
        (initState rampT rampT zerosQ zerosQ qtRamp qtFirstRamp zerosQ
          zerosQ) 2) 2 j =
      windowDot rampT rampT 3 2 j) ∧
    (∀ j, j < 6 →
      rowDistAt ⟨3, 6, 1, true, 1⟩
        (initState rampT rampT zerosQ zerosQ qtRamp qtFirstRamp zerosQ
          zerosQ) 2 j =
      maskD (bruteD0 rampT rampT 3 zerosQ zerosQ zerosQ zerosQ 2) true 2 1 j) ∧
    (_mstump rampT rampT 3 6 1 zerosQ zerosQ qtRamp qtFirstRamp zerosQ
        zerosQ 6 true 1).1 (2 - 1) =
      (rowOut (bruteD0 rampT rampT 3 zerosQ zerosQ zerosQ zerosQ 2)
        2 6 1 true).Psq) :=
  ⟨⟨by decide, by decide, fun j _ => rfl, fun i2 => rfl,
      ⟨by decide, by decide⟩⟩,
    claim1_recurrence_matches_bruteforce rampT rampT zerosQ zerosQ qtRamp
      qtFirstRamp zerosQ zerosQ 3 6 1 6 true (by decide) (by decide)
      (fun j _ => rfl) (fun i2 => rfl) 2 (by decide) (by decide)⟩

/-- The row the driver obtains from the FirstRowInitializer and writes at
output position `0`. -/
def driverFirstRow
    (cms : List ℚ → ℕ → (ℕ → ℚ) × (ℕ → ℚ))
    (fri : ℕ → (ℕ → ℚ) → (ℕ → ℚ) → ℕ → ℕ → (ℕ → ℚ) → (ℕ → ℚ) →
      Bool → WithTop ℚ × (ℤ × ℤ × ℤ))
    (A : Series) (m : ℕ) (Bopt : Option Series) (it : Bool) :
    WithTop ℚ × ℤ × ℤ × ℤ :=
  let TBe := effectiveTB A Bopt
  let fr := fri 0 (seriesFn A) (seriesFn TBe) m (stumpExclZone m)
    (cms A.data m).1 (cms A.data m).2 (effectiveIT it Bopt)
  (fr.1, fr.2.1, fr.2.2.1, fr.2.2.2)

/-- The `_mstump` call the driver makes for rows `1, …, l-1`. -/
def driverEngine
    (cms : List ℚ → ℕ → (ℕ → ℚ) × (ℕ → ℚ))
    (A : Series) (m : ℕ) (Bopt : Option Series) (it : Bool) :
    (ℕ → WithTop ℚ) × (ℕ → ℤ × ℤ × ℤ) :=
  let TBe := effectiveTB A Bopt
  let qt := _get_QT 0 (seriesFn A) (seriesFn TBe) m
  _mstump (seriesFn A) (seriesFn TBe) m (TBe.data.length - m + 1)
    (stumpExclZone m) (cms A.data m).1 (cms A.data m).2 qt.1 qt.2
    (cms TBe.data m).1 (cms TBe.data m).2 (A.data.length - m + 1)
    (effectiveIT it Bopt) 1

/-- Claim C6 (on the embedding with the source's `_stump` call resolved to
the module's `_mstump`): for every input passing dtype validation the driver
returns an assembled row set of length `l = len(T_B) - m + 1`, whose row `0`
is the FirstRowInitializer's row and whose rows `1, …, l-1` come from the
recurrence engine's output positions `0, …, l-2`. -/
theorem claim6_driver_assembly
    (cms : List ℚ → ℕ → (ℕ → ℚ) × (ℕ → ℚ))
    (fri : ℕ → (ℕ → ℚ) → (ℕ → ℚ) → ℕ → ℕ → (ℕ → ℚ) → (ℕ → ℚ) →
      Bool → WithTop ℚ × (ℤ × ℤ × ℤ))
    (A : Series) (m : ℕ) (Bopt : Option Series) (it : Bool)
    (hA : A.dtypeSupported = true)
    (hB : (effectiveTB A Bopt).dtypeSupported = true) :
    ∃ rows, mstump cms fri A m Bopt it = Except.ok rows ∧
      rows.length = (effectiveTB A Bopt).data.length - m + 1 ∧
      rows[0]? = some (driverFirstRow cms fri A m Bopt it) ∧
      (∀ t, 1 ≤ t → t < (effectiveTB A Bopt).data.length - m + 1 →
        rows[t]? = some ((driverEngine cms A m Bopt it).1 (t - 1),
          ((driverEngine cms A m Bopt it).2 (t - 1)).1,
          ((driverEngine cms A m Bopt it).2 (t - 1)).2.1,
          ((driverEngine cms A m Bopt it).2 (t - 1)).2.2)) := by
  have hcd : check_dtype A = Except.ok () := by
    unfold check_dtype
    rw [if_pos hA]
  have hcd2 : check_dtype (effectiveTB A Bopt) = Except.ok () := by
    unfold check_dtype
    rw [if_pos hB]
  obtain ⟨rows, hrows⟩ : ∃ rows, mstump cms fri A m Bopt it =
      Except.ok rows := by
    simp only [mstump, hcd, hcd2]
    exact ⟨_, rfl⟩
  refine ⟨rows, hrows, ?_⟩
  simp only [mstump, hcd, hcd2] at hrows
  injection hrows with hval
  subst hval
  refine ⟨?_, ?_, ?_⟩
  · simp
  · have h0 : 0 < (effectiveTB A Bopt).data.length - m + 1 := by omega
    rw [List.getElem?_map, List.getElem?_range h0]
    simp [driverFirstRow]
  · intro t h1t h2t
    rw [List.getElem?_map, List.getElem?_range h2t]
    have ht0 : ¬(t = 0) := by omega
    simp [ht0, driverEngine]

/-- The ramp series of length 8 as a driver-level `Series`. -/
def seriesRamp : Series := ⟨[0, 1, 2, 3, 4, 5, 6, 7], true⟩

/-- Witness for C6: the ramp self-join with `m = 3` (so `l = 6`). -/
theorem claim6_witness :
    (seriesRamp.dtypeSupported = true ∧
     (effectiveTB seriesRamp none).dtypeSupported = true) ∧
    (∃ rows, mstump cmsZero friZero seriesRamp 3 none true = Except.ok rows ∧
      rows.length = (effectiveTB seriesRamp none).data.length - 3 + 1 ∧
      rows[0]? = some (driverFirstRow cmsZero friZero seriesRamp 3 none true) ∧
      (∀ t, 1 ≤ t → t < (effectiveTB seriesRamp none).data.length - 3 + 1 →
        rows[t]? = some
          ((driverEngine cmsZero seriesRamp 3 none true).1 (t - 1),
           ((driverEngine cmsZero seriesRamp 3 none true).2 (t - 1)).1,
           ((driverEngine cmsZero seriesRamp 3 none true).2 (t - 1)).2.1,
           ((driverEngine cmsZero seriesRamp 3 none true).2 (t - 1)).2.2))) :=
  ⟨⟨rfl, rfl⟩,
    claim6_driver_assembly cmsZero friZero seriesRamp 3 none true rfl rfl⟩
